import Mathlib

/-!
Shallow embedding of MultiNER (src/ner.py): the context-window extractor,
the label translator, the voting/merge engine `intergrate_results`, the
manual finder, and the exception-flow skeleton of the Flair and Spacy
backend adapters.  Python strings are modelled as `List Char`, Python
integers as `Int`, Python dicts keyed by position as insertion-ordered
association lists, and fallible code as `Option`/`Except`.
-/

namespace MultiNER

/-- A Python string, as its list of characters. -/
abbrev PyStr := List Char

/-- Python default whitespace for `str.split()` / `str.strip()`:
space, tab, newline, carriage return, vertical tab, form feed. -/
def pyIsSpace (c : Char) : Bool :=
  c = ' ' || c = '\t' || c = '\n' || c = '\r' || c = Char.ofNat 11 || c = Char.ofNat 12

/-- Python slice `l[:s]` for an arbitrary integer `s`: a nonnegative stop
clamps to the length, a negative stop counts from the end (clamping at 0). -/
def pySliceTo (l : List α) (s : Int) : List α :=
  if 0 ≤ s then l.take s.toNat
  else l.take (l.length - (-s).toNat)

/-- Python slice `l[s:]` for an arbitrary integer `s`: a nonnegative start
clamps to the length, a negative start counts from the end (clamping at 0). -/
def pySliceFrom (l : List α) (s : Int) : List α :=
  if 0 ≤ s then l.drop s.toNat
  else l.drop (l.length - (-s).toNat)

/-- Python `str.strip()`: remove leading and trailing whitespace. -/
def pyStrip (l : PyStr) : PyStr :=
  ((l.dropWhile pyIsSpace).reverse.dropWhile pyIsSpace).reverse

/-- Worker for `pySplit`: `acc` holds the characters of the token being
read, in reverse order. -/
def pySplitAux : PyStr → PyStr → List PyStr
  | [], acc => if acc = [] then [] else [acc.reverse]
  | c :: rest, acc =>
    if pyIsSpace c then
      if acc = [] then pySplitAux rest []
      else acc.reverse :: pySplitAux rest []
    else pySplitAux rest (c :: acc)

/-- Python `str.split()` with no argument: split on runs of whitespace,
producing no empty tokens. -/
def pySplit (l : PyStr) : List PyStr := pySplitAux l []

/-- Python `" ".join(tokens)`. -/
def pyJoinSpace (ls : List PyStr) : PyStr := List.intercalate [' '] ls

/-- Does `l` start with `p`? (Python `str.startswith`, used to realise
`str.find`.) -/
def pyStartsWith : PyStr → PyStr → Bool
  | _, [] => true
  | [], _ :: _ => false
  | c :: cs, p :: ps => c = p && pyStartsWith cs ps

/-- Worker for `pyFind`: scan start positions left to right. -/
def pyFindAux (pat : PyStr) : PyStr → Nat → Int
  | [], i => if pyStartsWith [] pat then (i : Int) else -1
  | c :: rest, i =>
    if pyStartsWith (c :: rest) pat then (i : Int) else pyFindAux pat rest (i + 1)

/-- Python `text.find(pat)`: index of the first occurrence, or -1. -/
def pyFind (text pat : PyStr) : Int := pyFindAux pat text 0

/-- The boundary-punctuation set `CONTEXT_TOKENS` of src/ner.py line 139.
`Char.ofNat 39` is the apostrophe, `Char.ofNat 34` the double quote,
`Char.ofNat 96` the backquote, `Char.ofNat 92` the backslash. -/
def CONTEXT_TOKENS : PyStr :=
  ['”', '„', '!', ',', Char.ofNat 39, Char.ofNat 34, ',', Char.ofNat 96,
   '<', '>', '?', '-', '+', Char.ofNat 92]

/-- Result record of the `context` function. -/
structure ContextResult where
  l_context : PyStr
  r_context : PyStr
  ne_context : PyStr
deriving DecidableEq, Repr

/-- `l_context` of src/ner.py lines 141-142: the join of the last `ctxLen`
whitespace tokens of the stripped text before `pos`
(`" ".join(text_org[:pos].strip().split()[-context:])`). -/
def ctxLeft (text_org : PyStr) (pos ctxLen : Int) : PyStr :=
  pyJoinSpace (pySliceFrom (pySplit (pyStrip (pySliceTo text_org pos))) (-ctxLen))

/-- `r_context` of src/ner.py lines 144-145: the join of the first `ctxLen`
tokens of the stripped text after `pos + len(ne)`. -/
def ctxRight (text_org : PyStr) (ne : PyStr) (pos ctxLen : Int) : PyStr :=
  pyJoinSpace (pySliceTo (pySplit (pyStrip (pySliceFrom text_org (pos + (ne.length : Int))))) ctxLen)

/-- `ne_context` assembly of src/ner.py lines 147-159: prepend the last
character of `l_context` when it is a context token, append the first
character of `r_context` when it is one; the two `try` blocks swallow the
index error on an empty context, modelled by `getLast?` / `head?`. -/
def neCtxBuild (l_context r_context ne : PyStr) : PyStr :=
  let ne1 : PyStr :=
    match l_context.getLast? with
    | some c => if c ∈ CONTEXT_TOKENS then c :: ne else ne
    | none => ne
  match r_context.head? with
  | some c => if c ∈ CONTEXT_TOKENS then ne1 ++ [c] else ne1
  | none => ne1

/-- The `context` function of src/ner.py lines 130-161. -/
def context (text_org : PyStr) (ne : PyStr) (pos : Int) (ctxLen : Int) : ContextResult :=
  ⟨ctxLeft text_org pos ctxLen,
   ctxRight text_org ne pos ctxLen,
   neCtxBuild (ctxLeft text_org pos ctxLen) (ctxRight text_org ne pos ctxLen) ne⟩

/-- The `translate` function of src/ner.py lines 164-180. -/
def translate (s : String) : String :=
  let t := s.toLower
  if t = "org" then "organisation"
  else if t = "per" then "person"
  else if t = "misc" then "other"
  else if t = "gpe" then "location"
  else if t = "loc" then "location"
  else t

/-- Result record of `manual_find`. -/
structure ManualResult where
  pos : Int
  ne : PyStr
  source : String
  type : String
  left_context : PyStr
  right_context : PyStr
  ne_context : PyStr
deriving DecidableEq, Repr

/-- The `manual_find` function of src/ner.py lines 579-604.  When the
literal is found, the Python source reads

    result["left_context"],
    result["right_context"],
    result["ne_context"] = context(...)

with no line continuations, so the first of these three lines is a bare
expression statement that reads the key "left_context" before it was ever
assigned, raising `KeyError`.  When the literal is absent the record is
returned with empty contexts. -/
def manual_find (input_str : PyStr) (source_text : PyStr) (source : String)
    (_ctxLen : Int) : Except String ManualResult :=
  let pos := pyFind source_text input_str
  if pos = -1 then
    Except.ok ⟨pos, input_str, source, "manual", [], [], input_str⟩
  else
    Except.error "KeyError: left_context"

/-- First pair with the (strictly) maximal count, scanning left to right:
the behaviour of Python `max(d, key=d.get)` on an insertion-ordered dict,
paired with its value. -/
def maxPairAux (p : String × Nat) : List (String × Nat) → String × Nat
  | [] => p
  | q :: rest => if q.2 > p.2 then maxPairAux q rest else maxPairAux p rest

/-- `max(input_type, key=input_type.get)` together with the winning count;
`none` on the empty dict (Python raises ValueError there). -/
def maxPair : List (String × Nat) → Option (String × Nat)
  | [] => none
  | p :: rest => some (maxPairAux p rest)

/-- Python `input_type.get(t)` on an insertion-ordered dict modelled as an
association list. -/
def hget : List (String × Nat) → String → Option Nat
  | [], _ => none
  | p :: rest, t => if p.1 = t then some p.2 else hget rest t

/-- The `max_class` function of src/ner.py lines 607-620.  `mc` starts as
the argmax of the histogram; if its count is 1 it is reassigned to
`pref` with `sure = 1`; then the equality tests for counts 2, 3, 4 are
re-evaluated against the (possibly reassigned) `mc`, a later hit
overriding an earlier one.  If no branch ever assigns `sure`, the
`return` raises UnboundLocalError, modelled as `none`. -/
def max_class (input_type : List (String × Nat)) (pref : String) :
    Option (String × Nat) :=
  match maxPair input_type with
  | none => none
  | some mp =>
    let step1 : String × Option Nat :=
      if hget input_type mp.1 = some 1 then (pref, some 1) else (mp.1, none)
    let mc := step1.1
    let s2 : Option Nat := if hget input_type mc = some 2 then some 2 else step1.2
    let s3 : Option Nat := if hget input_type mc = some 3 then some 3 else s2
    let s4 : Option Nat := if hget input_type mc = some 4 then some 4 else s3
    match s4 with
    | some s => some (mc, s)
    | none => none

/-- A normalized backend detection: `{"ne": ..., "pos": ..., "type": ...}`. -/
structure RawEntity where
  ne : PyStr
  pos : Int
  type : String
deriving DecidableEq, Repr

/-- A value of the offset registry `new_result` of `intergrate_results`:
one aggregated entry, before filtering and finalisation. -/
structure Entry where
  count : Nat
  ne : PyStr
  ner_src : List String
  type : List (String × Nat)
  pref_type : Option String
  alt_ne : Option PyStr
deriving DecidableEq, Repr

/-- The backend-name → entity-list map handed to `intergrate_results`.
The stanford and spotlight lists are read unconditionally (a missing key
would crash the Python), the three parser lists are guarded by an explicit
`is None` test (src/ner.py line 521), hence `Option`. -/
structure NerResult where
  stanford : List RawEntity
  spotlight : List RawEntity
  spacy : Option (List RawEntity)
  polyglot : Option (List RawEntity)
  flair : Option (List RawEntity)
deriving DecidableEq, Repr

/-- Python dict lookup on the insertion-ordered registry. -/
def dictFind (d : List (Int × Entry)) (k : Int) : Option Entry :=
  match d with
  | [] => none
  | p :: rest => if p.1 = k then some p.2 else dictFind rest k

/-- Python dict assignment `d[k] = v`: replace in place if the key exists
(keeping its original position), else append. -/
def dictSet (d : List (Int × Entry)) (k : Int) (v : Entry) : List (Int × Entry) :=
  match d with
  | [] => [(k, v)]
  | p :: rest => if p.1 = k then (k, v) :: rest else p :: dictSet rest k v

/-- Histogram update used in both the spotlight and the parser passes:
increment the count of `t` if present, else insert `t` with count 1 at the
end (Python dict insertion order). -/
def histIncr (h : List (String × Nat)) (t : String) : List (String × Nat) :=
  match h with
  | [] => [(t, 1)]
  | p :: rest => if p.1 = t then (p.1, p.2 + 1) :: rest else p :: histIncr rest t

/-- The entry built for a stanford entity (src/ner.py lines 492-498):
count 1, source `["stanford"]`, histogram `{type: 1}`, preferred type set. -/
def stanfordEntry (ne : RawEntity) : Entry :=
  ⟨1, ne.ne, ["stanford"], [(ne.type, 1)], some ne.type, none⟩

/-- The stanford pass (src/ner.py lines 491-498): seed the registry. -/
def pass1 : List RawEntity → List (Int × Entry) → List (Int × Entry)
  | [], reg => reg
  | ne :: rest, reg => pass1 rest (dictSet reg ne.pos (stanfordEntry ne))

/-- The Python local variable `res` as the spotlight loop reads it: `[]`
when there was no stanford entity, else the dict built for the last
stanford entity. -/
def resAfterStanford (l : List RawEntity) : Option Entry :=
  l.getLast?.map stanfordEntry

/-- The test `ne.get("pos") in res` of src/ner.py line 501.  At that point
`res` is either the empty list `[]` initialised at line 489 (when the
stanford list was empty) or the dict built for the last stanford entity,
whose keys are the five strings "count", "ne", "ner_src", "type" and
"pref_type".  A Python `in` test of an integer against an empty list, or
against a dict keyed by strings, is False (an int never equals a str), so
the test is False for every position and every value of `res`. -/
def posInRes (_pos : Int) (_res : Option Entry) : Bool := false

/-- The entry built for a spotlight entity in the creation branch
(src/ner.py lines 502-508): count 1, source `["spotlight"]`, histogram
`{type: 1}`, and — unlike the parser passes — preferred type set. -/
def spotlightNewEntry (ne : RawEntity) : Entry :=
  ⟨1, ne.ne, ["spotlight"], [(ne.type, 1)], some ne.type, none⟩

/-- The spotlight pass (src/ner.py lines 500-516).  When the line-501 test
is False a fresh entry is stored (overwriting any entry at that offset);
when it is True the existing entry is updated — reading a position absent
from the registry there would raise KeyError, modelled as `none`. -/
def pass2 (res : Option Entry) : List RawEntity → List (Int × Entry) →
    Option (List (Int × Entry))
  | [], reg => some reg
  | ne :: rest, reg =>
    if posInRes ne.pos res then
      match dictFind reg ne.pos with
      | none => none
      | some e =>
        pass2 res rest (dictSet reg ne.pos
          { e with count := e.count + 1,
                   ner_src := e.ner_src ++ ["spotlight"],
                   type := histIncr e.type ne.type })
    else
      pass2 res rest (dictSet reg ne.pos (spotlightNewEntry ne))

/-- What the spotlight pass actually computes (the update branch being
unreachable): store a fresh `spotlightNewEntry` at each reported offset. -/
def spotFold : List RawEntity → List (Int × Entry) → List (Int × Entry)
  | [], reg => reg
  | ne :: rest, reg => spotFold rest (dictSet reg ne.pos (spotlightNewEntry ne))

/-- The corroboration pass for one parser (src/ner.py lines 523-545):
offset present and parser already recorded → skip; offset present
otherwise → increment count, append the parser, bump the histogram, and
record an alternate surface form when the text differs; offset absent →
fresh entry without preferred type. -/
def corroborate (parser : String) : List RawEntity → List (Int × Entry) →
    List (Int × Entry)
  | [], reg => reg
  | ne :: rest, reg =>
    match dictFind reg ne.pos with
    | some e =>
      if parser ∈ e.ner_src then corroborate parser rest reg
      else
        let e1 : Entry :=
          { e with count := e.count + 1,
                   ner_src := e.ner_src ++ [parser],
                   type := histIncr e.type ne.type }
        let e2 : Entry := if ne.ne ≠ e.ne then { e1 with alt_ne := some ne.ne } else e1
        corroborate parser rest (dictSet reg ne.pos e2)
    | none =>
      corroborate parser rest
        (dictSet reg ne.pos ⟨1, ne.ne, [parser], [(ne.type, 1)], none, none⟩)

/-- The loop over `parsers = ["spacy", "polyglot", "flair"]`
(src/ner.py lines 518-545), skipping a backend whose key maps to None. -/
def pass3 (input : NerResult) (reg : List (Int × Entry)) : List (Int × Entry) :=
  let r1 := match input.spacy with
    | none => reg
    | some l => corroborate "spacy" l reg
  let r2 := match input.polyglot with
    | none => r1
    | some l => corroborate "polyglot" l r1
  match input.flair with
  | none => r2
  | some l => corroborate "flair" l r2

/-- Python truthiness of `d.get("pref_type")`: None and the empty string
are falsy. -/
def truthyStr : Option String → Bool
  | none => false
  | some s => !(s = "")

/-- The survival test of src/ner.py lines 549-550:
`new_result[ne].get("pref_type") or len(new_result[ne].get("ner_src")) == 2`. -/
def survives (e : Entry) : Bool :=
  truthyStr e.pref_type || e.ner_src.length = 2

/-- A finalised output record of `intergrate_results`. -/
structure FinalEntity where
  count : Nat
  ne : PyStr
  ner_src : List String
  type : String
  type_certainty : Nat
  types : List String
  alt_ne : Option PyStr
  left_context : PyStr
  right_context : PyStr
  ne_context : PyStr
  pos : Int
  source : String
deriving DecidableEq, Repr

/-- Finalisation of one surviving entry (src/ner.py lines 551-572): pick
the `max_class` preferred argument (`pref_type` when the key is present,
else the first histogram key — reading it from an empty histogram would
raise IndexError, modelled as `none`), resolve the type, compute the
context, and assemble the output record.  A `max_class` failure
(UnboundLocalError) propagates as `none`. -/
def finalize (source_text : PyStr) (source : String) (ctxLen : Int)
    (k : Int) (e : Entry) : Option FinalEntity :=
  let prefArg : Option String :=
    match e.pref_type with
    | some p => some p
    | none => (e.type.head?).map Prod.fst
  match prefArg with
  | none => none
  | some p =>
    match max_class e.type p with
    | none => none
    | some mc =>
      let c := context source_text e.ne k ctxLen
      some ⟨e.count, e.ne, e.ner_src, mc.1, mc.2, e.type.map Prod.fst, e.alt_ne,
            c.l_context, c.r_context, c.ne_context, k, source⟩

/-- The filter-and-finalise loop of src/ner.py lines 547-572, iterating the
registry in insertion order. -/
def filterFinalize (source_text : PyStr) (source : String) (ctxLen : Int) :
    List (Int × Entry) → Option (List FinalEntity)
  | [] => some []
  | (k, e) :: rest =>
    if survives e then
      match finalize source_text source ctxLen k e with
      | none => none
      | some f =>
        match filterFinalize source_text source ctxLen rest with
        | none => none
        | some out => some (f :: out)
    else filterFinalize source_text source ctxLen rest

/-- `sorted(final_result, key=operator.itemgetter("pos"))`
(src/ner.py line 574): a stable sort on the position. -/
def sortByPos (l : List FinalEntity) : List FinalEntity :=
  l.insertionSort (fun a b => a.pos ≤ b.pos)

/-- The `intergrate_results` function of src/ner.py lines 487-576. -/
def intergrate_results (input : NerResult) (source : String)
    (source_text : PyStr) (ctxLen : Int) : Option (List FinalEntity) :=
  let reg1 := pass1 input.stanford []
  match pass2 (resAfterStanford input.stanford) input.spotlight reg1 with
  | none => none
  | some reg2 =>
    (filterFinalize source_text source ctxLen (pass3 input reg2)).map sortByPos

/-- The registry as it stands after the three passes (the spotlight pass
never takes its failing branch, so the default value is never used). -/
def mergedRegistry (input : NerResult) : List (Int × Entry) :=
  pass3 input
    ((pass2 (resAfterStanford input.stanford) input.spotlight
      (pass1 input.stanford [])).getD [])

/-- Outcome of the single Flair model invocation
`nlp_flair.predict(sentence)` followed by `to_dict`: a list of tagged
items (a `none` item is the falsy case skipped at src/ner.py line 294), or
an exception. -/
inductive FlairOutcome where
  | ok (items : List (Option (PyStr × Int × String)))
  | raises
deriving DecidableEq, Repr

/-- `Flair.run` followed by `Flair.join` (src/ner.py lines 282-304).
`run` has no exception handler: when the model call raises, the thread
dies before `self.result` is ever assigned, and `join`, which returns
`{"flair": self.result}`, raises AttributeError — modelled as `error`.
Otherwise each item becomes `{"ne": text, "pos": start_pos, "type":
translate(type)}`. -/
def flairRunJoin (o : FlairOutcome) : Except String (String × List RawEntity) :=
  match o with
  | .ok items =>
    .ok ("flair", items.filterMap (fun i => i.map (fun j => ⟨j.1, j.2.1, translate j.2.2⟩)))
  | .raises => .error "AttributeError: result"

/-- Outcome of the single Spacy model invocation `nlp_spacy(text)`: the
`(text, label)` pairs of `doc.ents`, or an exception. -/
inductive SpacyOutcome where
  | ok (ents : List (PyStr × String))
  | raises
deriving DecidableEq, Repr

/-- The offset-assignment loop shared by the in-process adapters
(src/ner.py lines 405-410): scan forward for the literal surface text from
a cursor advanced past the previous entity; a failed `find` yields -1 and
an inaccurate offset, never an error. -/
def assignOffsets (text : PyStr) : List (PyStr × String) → Int → List RawEntity
  | [], _ => []
  | (ne, ty) :: rest, offset =>
    let pos := pyFind (pySliceFrom text offset) ne
    ⟨ne, pos + offset, ty⟩ :: assignOffsets text rest (offset + pos + (ne.length : Int))

/-- `Spacy.run` followed by `Spacy.join` (src/ner.py lines 397-418).
`result = []` is bound before the `try` block and any exception is
swallowed by `except Exception: pass`; `self.result` is assigned after the
block in every case, so `join` always returns a map (empty on failure). -/
def spacyRunJoin (text : PyStr) (o : SpacyOutcome) :
    Except String (String × List RawEntity) :=
  match o with
  | .ok ents =>
    .ok ("spacy", assignOffsets text (ents.map (fun p => (p.1, translate p.2))) 0)
  | .raises => .ok ("spacy", [])

/-- The key list (positions) of the offset registry, in insertion order. -/
def keys (d : List (Int × Entry)) : List Int := d.map Prod.fst

instance : IsTotal FinalEntity (fun a b => a.pos ≤ b.pos) :=
  ⟨fun a b => Int.le_total a.pos b.pos⟩

instance : IsTrans FinalEntity (fun a b => a.pos ≤ b.pos) :=
  ⟨fun _ _ _ hab hbc => le_trans hab hbc⟩

theorem pySliceFrom_nil (s : Int) : pySliceFrom ([] : List α) s = [] := by
  unfold pySliceFrom
  split <;> simp

theorem pySliceTo_nil (s : Int) : pySliceTo ([] : List α) s = [] := by
  unfold pySliceTo
  split <;> simp

theorem pySliceFrom_eq_nil {l : List α} {s : Int} (hs : (l.length : Int) ≤ s) :
    pySliceFrom l s = [] := by
  unfold pySliceFrom
  have h0 : 0 ≤ s := le_trans (Int.ofNat_nonneg l.length) hs
  rw [if_pos h0]
  exact List.drop_eq_nil_of_le (by omega)

theorem pySliceTo_eq_nil {l : List α} {s : Int} (hs : s ≤ -(l.length : Int)) :
    pySliceTo l s = [] := by
  unfold pySliceTo
  by_cases h0 : 0 ≤ s
  · rw [if_pos h0]
    have hl : l.length = 0 := by omega
    rw [List.length_eq_zero.mp hl]
    simp
  · rw [if_neg h0]
    have hl : l.length - (-s).toNat = 0 := by omega
    rw [hl]
    simp

theorem pySplitAux_spaces : ∀ (sp acc : PyStr), (∀ c ∈ sp, pyIsSpace c) →
    pySplitAux sp acc = if acc = [] then [] else [acc.reverse] := by
  intro sp
  induction sp with
  | nil => intro acc _; rfl
  | cons c rest ih =>
    intro acc hsp
    have hc : pyIsSpace c = true := hsp c (List.mem_cons_self c rest)
    have hrest : ∀ x ∈ rest, pyIsSpace x :=
      fun x hx => hsp x (List.mem_cons.mpr (Or.inr hx))
    simp only [pySplitAux, hc, if_true]
    by_cases ha : acc = []
    · simp [ha, ih [] hrest]
    · simp [ha, ih [] hrest]

theorem pySplitAux_append_spaces : ∀ (l sp acc : PyStr), (∀ c ∈ sp, pyIsSpace c) →
    pySplitAux (l ++ sp) acc = pySplitAux l acc := by
  intro l
  induction l with
  | nil =>
    intro sp acc hsp
    rw [List.nil_append, pySplitAux_spaces sp acc hsp]
    rfl
  | cons c rest ih =>
    intro sp acc hsp
    simp only [List.cons_append, pySplitAux]
    cases hc : pyIsSpace c
    · simp only [Bool.false_eq_true, if_false]
      exact ih sp (c :: acc) hsp
    · simp only [if_true]
      by_cases ha : acc = []
      · simp [ha, ih sp [] hsp]
      · simp [ha, ih sp [] hsp]

theorem pySplitAux_dropWhile : ∀ l : PyStr,
    pySplitAux (l.dropWhile pyIsSpace) [] = pySplitAux l [] := by
  intro l
  induction l with
  | nil => rfl
  | cons c rest ih =>
    rw [List.dropWhile_cons]
    cases hc : pyIsSpace c
    · simp only [Bool.false_eq_true, if_false]
    · simp only [if_true]
      rw [ih]
      simp [pySplitAux, hc]

theorem pySplit_strip (l : PyStr) : pySplit (pyStrip l) = pySplit l := by
  unfold pySplit pyStrip
  rw [← pySplitAux_dropWhile l]
  have hdec : l.dropWhile pyIsSpace =
      ((l.dropWhile pyIsSpace).reverse.dropWhile pyIsSpace).reverse ++
      ((l.dropWhile pyIsSpace).reverse.takeWhile pyIsSpace).reverse := by
    have h0 : (l.dropWhile pyIsSpace).reverse.takeWhile pyIsSpace ++
        (l.dropWhile pyIsSpace).reverse.dropWhile pyIsSpace =
        (l.dropWhile pyIsSpace).reverse :=
      List.takeWhile_append_dropWhile pyIsSpace (l.dropWhile pyIsSpace).reverse
    calc l.dropWhile pyIsSpace
        = (l.dropWhile pyIsSpace).reverse.reverse := (List.reverse_reverse _).symm
      _ = ((l.dropWhile pyIsSpace).reverse.takeWhile pyIsSpace ++
            (l.dropWhile pyIsSpace).reverse.dropWhile pyIsSpace).reverse := by rw [h0]
      _ = ((l.dropWhile pyIsSpace).reverse.dropWhile pyIsSpace).reverse ++
            ((l.dropWhile pyIsSpace).reverse.takeWhile pyIsSpace).reverse := by
            rw [List.reverse_append]
  have hsp : ∀ c ∈ ((l.dropWhile pyIsSpace).reverse.takeWhile pyIsSpace).reverse,
      pyIsSpace c := by
    intro c hc
    exact List.mem_takeWhile_imp (List.mem_reverse.mp hc)
  conv_rhs => rw [hdec]
  rw [pySplitAux_append_spaces _ _ _ hsp]

theorem neCtxBuild_shape (l r S : PyStr) :
    ∃ lpre rsuf : PyStr,
      neCtxBuild l r S = lpre ++ S ++ rsuf ∧
      ((lpre = [] ∧ ∀ c, l.getLast? = some c → c ∉ CONTEXT_TOKENS) ∨
       (∃ c, lpre = [c] ∧ l.getLast? = some c ∧ c ∈ CONTEXT_TOKENS)) ∧
      ((rsuf = [] ∧ ∀ c, r.head? = some c → c ∉ CONTEXT_TOKENS) ∨
       (∃ c, rsuf = [c] ∧ r.head? = some c ∧ c ∈ CONTEXT_TOKENS)) := by
  unfold neCtxBuild
  cases hl : l.getLast? with
  | none =>
    cases hr : r.head? with
    | none =>
      refine ⟨[], [], by simp, Or.inl ⟨rfl, ?_⟩, Or.inl ⟨rfl, ?_⟩⟩
      · intro c hc; cases hc
      · intro c hc; cases hc
    | some d =>
      by_cases hd : d ∈ CONTEXT_TOKENS
      · refine ⟨[], [d], by simp [hd], Or.inl ⟨rfl, ?_⟩,
          Or.inr ⟨d, rfl, rfl, hd⟩⟩
        intro c hc; cases hc
      · refine ⟨[], [], by simp [hd], Or.inl ⟨rfl, ?_⟩, Or.inl ⟨rfl, ?_⟩⟩
        · intro c hc; cases hc
        · intro c hc
          have : d = c := by injection hc
          rw [← this]
          exact hd
  | some c =>
    by_cases hc : c ∈ CONTEXT_TOKENS
    · cases hr : r.head? with
      | none =>
        refine ⟨[c], [], by simp [hc], Or.inr ⟨c, rfl, rfl, hc⟩, Or.inl ⟨rfl, ?_⟩⟩
        intro c' hc'; cases hc'
      | some d =>
        by_cases hd : d ∈ CONTEXT_TOKENS
        · exact ⟨[c], [d], by simp [hc, hd], Or.inr ⟨c, rfl, rfl, hc⟩,
            Or.inr ⟨d, rfl, rfl, hd⟩⟩
        · refine ⟨[c], [], by simp [hc, hd], Or.inr ⟨c, rfl, rfl, hc⟩,
            Or.inl ⟨rfl, ?_⟩⟩
          intro c' hc'
          have : d = c' := by injection hc'
          rw [← this]
          exact hd
    · cases hr : r.head? with
      | none =>
        refine ⟨[], [], by simp [hc], Or.inl ⟨rfl, ?_⟩, Or.inl ⟨rfl, ?_⟩⟩
        · intro c' hc'
          have : c = c' := by injection hc'
          rw [← this]
          exact hc
        · intro c' hc'; cases hc'
      | some d =>
        by_cases hd : d ∈ CONTEXT_TOKENS
        · refine ⟨[], [d], by simp [hc, hd], Or.inl ⟨rfl, ?_⟩,
            Or.inr ⟨d, rfl, rfl, hd⟩⟩
          intro c' hc'
          have : c = c' := by injection hc'
          rw [← this]
          exact hc
        · refine ⟨[], [], by simp [hc, hd], Or.inl ⟨rfl, ?_⟩, Or.inl ⟨rfl, ?_⟩⟩
          · intro c' hc'
            have : c = c' := by injection hc'
            rw [← this]
            exact hc
          · intro c' hc'
            have : d = c' := by injection hc'
            rw [← this]
            exact hd

theorem maxPairAux_mem : ∀ (l : List (String × Nat)) (p : String × Nat),
    maxPairAux p l ∈ p :: l := by
  intro l
  induction l with
  | nil => intro p; simp [maxPairAux]
  | cons q rest ih =>
    intro p
    simp only [maxPairAux]
    split
    · have := ih q
      simp only [List.mem_cons] at this ⊢
      tauto
    · have := ih p
      simp only [List.mem_cons] at this ⊢
      tauto

theorem maxPairAux_ge : ∀ (l : List (String × Nat)) (p q : String × Nat),
    q ∈ p :: l → q.2 ≤ (maxPairAux p l).2 := by
  intro l
  induction l with
  | nil =>
    intro p q hq
    simp only [List.mem_cons, List.not_mem_nil, or_false] at hq
    subst hq
    simp [maxPairAux]
  | cons r rest ih =>
    intro p q hq
    simp only [maxPairAux]
    split
    · rename_i hlt
      rcases List.mem_cons.mp hq with h1 | h1
      · rw [h1]
        exact le_trans (le_of_lt hlt) (ih r r (List.mem_cons_self r rest))
      · exact ih r q h1
    · rename_i hlt
      push_neg at hlt
      rcases List.mem_cons.mp hq with h1 | h1
      · rw [h1]
        exact ih p p (List.mem_cons_self p rest)
      · rcases List.mem_cons.mp h1 with h2 | h2
        · rw [h2]
          exact le_trans hlt (ih p p (List.mem_cons_self p rest))
        · exact ih p q (List.mem_cons.mpr (Or.inr h2))

theorem maxPair_mem {h : List (String × Nat)} {mp : String × Nat}
    (hm : maxPair h = some mp) : mp ∈ h := by
  cases h with
  | nil => simp [maxPair] at hm
  | cons p rest =>
    simp only [maxPair, Option.some.injEq] at hm
    subst hm
    exact maxPairAux_mem rest p

theorem maxPair_ge {h : List (String × Nat)} {mp : String × Nat}
    (hm : maxPair h = some mp) : ∀ q ∈ h, q.2 ≤ mp.2 := by
  cases h with
  | nil => simp [maxPair] at hm
  | cons p rest =>
    simp only [maxPair, Option.some.injEq] at hm
    subst hm
    exact fun q hq => maxPairAux_ge rest p q hq

theorem hget_mem : ∀ (h : List (String × Nat)) (t : String) (c : Nat),
    hget h t = some c → (t, c) ∈ h := by
  intro h
  induction h with
  | nil => intro t c hc; simp [hget] at hc
  | cons p rest ih =>
    intro t c hc
    simp only [hget] at hc
    split at hc
    · rename_i heq
      simp only [Option.some.injEq] at hc
      have hpc : (t, c) = p := by
        rw [← heq, ← hc]
      exact List.mem_cons.mpr (Or.inl hpc)
    · exact List.mem_cons.mpr (Or.inr (ih t c hc))

theorem hget_of_mem_nodup : ∀ (h : List (String × Nat)) (t : String) (c : Nat),
    (h.map Prod.fst).Nodup → (t, c) ∈ h → hget h t = some c := by
  intro h
  induction h with
  | nil => intro t c _ hm; simp at hm
  | cons p rest ih =>
    intro t c hn hm
    simp only [List.map_cons, List.nodup_cons] at hn
    rcases List.mem_cons.mp hm with h1 | h1
    · rw [← h1]
      simp [hget]
    · have hne : p.1 ≠ t := by
        intro hEq
        exact hn.1 (hEq ▸ (List.mem_map.mpr ⟨(t, c), h1, rfl⟩))
      simp only [hget, if_neg hne]
      exact ih t c hn.2 h1

theorem max_class_max_one {h : List (String × Nat)} {m : String}
    (hn : (h.map Prod.fst).Nodup) (hm : maxPair h = some (m, 1)) (p : String) :
    max_class h p = some (p, 1) := by
  have hmem : (m, 1) ∈ h := maxPair_mem hm
  have hg : hget h m = some 1 := hget_of_mem_nodup h m 1 hn hmem
  have hbound : ∀ q ∈ h, q.2 ≤ 1 := maxPair_ge hm
  have hp : ∀ n : Nat, 2 ≤ n → ¬ (hget h p = some n) := by
    intro n h2 hc
    have := hbound _ (hget_mem h p n hc)
    omega
  simp [max_class, hm, hg, hp 2 (by omega), hp 3 (by omega), hp 4 (by omega)]

theorem max_class_max_mid {h : List (String × Nat)} {m : String} {c : Nat}
    (hn : (h.map Prod.fst).Nodup) (hm : maxPair h = some (m, c))
    (h2 : 2 ≤ c) (h4 : c ≤ 4) (p : String) :
    max_class h p = some (m, c) := by
  have hmem : (m, c) ∈ h := maxPair_mem hm
  have hg : hget h m = some c := hget_of_mem_nodup h m c hn hmem
  interval_cases c <;> simp [max_class, hm, hg]

theorem max_class_max_big {h : List (String × Nat)} {m : String} {c : Nat}
    (hn : (h.map Prod.fst).Nodup) (hm : maxPair h = some (m, c))
    (h5 : 5 ≤ c) (p : String) :
    max_class h p = none := by
  have hmem : (m, c) ∈ h := maxPair_mem hm
  have hg : hget h m = some c := hget_of_mem_nodup h m c hn hmem
  have h1 : ¬ (hget h m = some 1) := by rw [hg]; intro hc; injection hc; omega
  have hh2 : ¬ (hget h m = some 2) := by rw [hg]; intro hc; injection hc; omega
  have hh3 : ¬ (hget h m = some 3) := by rw [hg]; intro hc; injection hc; omega
  have hh4 : ¬ (hget h m = some 4) := by rw [hg]; intro hc; injection hc; omega
  simp [max_class, hm, h1, hh2, hh3, hh4]

theorem finalize_some {st : PyStr} {src : String} {ctx k : Int} {e : Entry}
    {f : FinalEntity} (hf : finalize st src ctx k e = some f) :
    ∃ p, ((e.pref_type = some p) ∨
          (e.pref_type = none ∧ (e.type.head?).map Prod.fst = some p)) ∧
      max_class e.type p = some (f.type, f.type_certainty) ∧ f.pos = k := by
  unfold finalize at hf
  cases hpt : e.pref_type with
  | some p =>
    rw [hpt] at hf
    simp only at hf
    cases hmc : max_class e.type p with
    | none => rw [hmc] at hf; simp at hf
    | some mc =>
      rw [hmc] at hf
      simp only [Option.some.injEq] at hf
      refine ⟨p, Or.inl rfl, ?_, ?_⟩
      · rw [hmc, ← hf]
      · rw [← hf]
  | none =>
    rw [hpt] at hf
    simp only at hf
    cases hhd : (e.type.head?).map Prod.fst with
    | none => rw [hhd] at hf; simp at hf
    | some p =>
      rw [hhd] at hf
      simp only at hf
      cases hmc : max_class e.type p with
      | none => rw [hmc] at hf; simp at hf
      | some mc =>
        rw [hmc] at hf
        simp only [Option.some.injEq] at hf
        refine ⟨p, Or.inr ⟨rfl, rfl⟩, ?_, ?_⟩
        · rw [hmc, ← hf]
        · rw [← hf]

theorem finalize_pos {st : PyStr} {src : String} {ctx k : Int} {e : Entry}
    {f : FinalEntity} (hf : finalize st src ctx k e = some f) : f.pos = k :=
  (finalize_some hf).choose_spec.2.2

/-- C4: for a surviving entry finalised by `intergrate_results`, whose type
histogram has distinct keys and winning pair `(m, c)`: every histogram
count is at most `c`; when `c = 1` the type confidence is forced to 1 and
the resolved type is the preferred type when present (else, for a
single-type histogram, that sole type); and for `c` in 2..4 the resolved
type is the winning key and the type confidence is exactly `c`. -/
theorem C4_type_resolution (st : PyStr) (src : String) (ctx k : Int)
    (e : Entry) (f : FinalEntity) (m : String) (c : Nat)
    (hf : finalize st src ctx k e = some f)
    (hn : (e.type.map Prod.fst).Nodup)
    (hm : maxPair e.type = some (m, c)) :
    (∀ q ∈ e.type, q.2 ≤ c) ∧
    (c = 1 → f.type_certainty = 1 ∧
      (∀ p, e.pref_type = some p → f.type = p) ∧
      (e.pref_type = none → ∀ t, e.type = [(t, 1)] → f.type = t)) ∧
    (2 ≤ c → c ≤ 4 → f.type = m ∧ f.type_certainty = c) := by
  obtain ⟨p, hp, hmc, _⟩ := finalize_some hf
  refine ⟨fun q hq => maxPair_ge hm q hq, ?_, ?_⟩
  · intro hc1
    subst hc1
    have hone := max_class_max_one hn hm p
    rw [hone] at hmc
    obtain ⟨h1', h2'⟩ : p = f.type ∧ 1 = f.type_certainty := by
      simpa using hmc
    have hft : f.type = p := h1'.symm
    have hfc : f.type_certainty = 1 := h2'.symm
    refine ⟨hfc, ?_, ?_⟩
    · intro p' hp'
      rcases hp with h1 | h1
      · rw [hp'] at h1
        simp only [Option.some.injEq] at h1
        rw [hft, h1]
      · rw [h1.1] at hp'
        exact absurd hp' (by simp)
    · intro hnone t ht
      rcases hp with h1 | h1
      · rw [hnone] at h1; exact absurd h1 (by simp)
      · have h2' := h1.2
        rw [ht] at h2'
        have h3' : t = p := by simpa using h2'
        rw [hft]
        exact h3'.symm
  · intro hc2 hc4
    have hmid := max_class_max_mid hn hm hc2 hc4 p
    rw [hmid] at hmc
    obtain ⟨h1', h2'⟩ : m = f.type ∧ c = f.type_certainty := by
      simpa using hmc
    exact ⟨h1'.symm, h2'.symm⟩

/-- C4 witness: a two-count single-type histogram with preferred type
"person" finalises to resolved type "person" with confidence 2, as the
theorem states. -/
theorem C4_type_resolution_witness :
    finalize [] "p" 5 0 ⟨2, ['a'], ["stanford", "spacy"], [("person", 2)],
        some "person", none⟩
      = some ⟨2, ['a'], ["stanford", "spacy"], "person", 2, ["person"], none,
          [], [], ['a'], 0, "p"⟩ ∧
    (([("person", 2)].map Prod.fst : List String)).Nodup ∧
    maxPair [("person", 2)] = some ("person", 2) ∧
    ((∀ q ∈ ([("person", 2)] : List (String × Nat)), q.2 ≤ 2) ∧
     (2 = 1 → (2 : Nat) = 1 ∧
       (∀ p, (some "person" : Option String) = some p → "person" = p) ∧
       ((some "person" : Option String) = none →
         ∀ t, ([("person", 2)] : List (String × Nat)) = [(t, 1)] → "person" = t)) ∧
     (2 ≤ 2 → 2 ≤ 4 → "person" = "person" ∧ (2 : Nat) = 2)) := by
  refine ⟨rfl, by decide, rfl, ?_⟩
  exact C4_type_resolution [] "p" 5 0
    ⟨2, ['a'], ["stanford", "spacy"], [("person", 2)], some "person", none⟩
    ⟨2, ['a'], ["stanford", "spacy"], "person", 2, ["person"], none,
      [], [], ['a'], 0, "p"⟩
    "person" 2 rfl (by decide) rfl

/-- C10: when the winning histogram count is 5 or more, none of the four
equality branches of `max_class` assigns `sure`, so the function errors
(UnboundLocalError) instead of returning a pair, and finalisation of any
entry carrying such a histogram cannot complete. -/
theorem C10_max_class_unbound (h : List (String × Nat)) (p m : String) (c : Nat)
    (hn : (h.map Prod.fst).Nodup) (hm : maxPair h = some (m, c)) (h5 : 5 ≤ c) :
    max_class h p = none ∧
    ∀ (st : PyStr) (src : String) (ctx k : Int) (e : Entry),
      e.type = h → finalize st src ctx k e = none := by
  refine ⟨max_class_max_big hn hm h5 p, ?_⟩
  intro st src ctx k e he
  unfold finalize
  cases hpt : e.pref_type with
  | some p' =>
    simp only [he]
    rw [max_class_max_big hn hm h5 p']
  | none =>
    simp only [he]
    cases hhd : (h.head?).map Prod.fst with
    | none => rfl
    | some p' =>
      simp only
      rw [max_class_max_big hn hm h5 p']

/-- C10 witness: the singleton histogram with count 5 makes `max_class`
error and finalisation fail. -/
theorem C10_max_class_unbound_witness :
    (([("person", 5)].map Prod.fst : List String)).Nodup ∧
    maxPair [("person", 5)] = some ("person", 5) ∧
    (5 : Nat) ≤ 5 ∧
    (max_class [("person", 5)] "x" = none ∧
     ∀ (st : PyStr) (src : String) (ctx k : Int) (e : Entry),
       e.type = [("person", 5)] → finalize st src ctx k e = none) := by
  refine ⟨by decide, rfl, by omega, ?_⟩
  exact C10_max_class_unbound [("person", 5)] "x" "person" 5 (by decide) rfl (by omega)

/-- C3: `manual_find` raises `KeyError` whenever the literal occurs in the
text (here "Einstein" inside the doctest sentence), because the three-line
tuple assignment at src/ner.py lines 594-596 has no line continuations and
its first line reads the still-unassigned key; only when the literal is
absent does it return the record, with position -1 and empty contexts. -/
theorem C3_manual_find_keyerror :
    manual_find "Einstein".toList
        "Deze iets langere test bevat de naam Albert Einstein.".toList "p" 5
      = Except.error "KeyError: left_context" ∧
    manual_find "Zebra".toList
        "Deze iets langere test bevat de naam Albert Einstein.".toList "p" 5
      = Except.ok ⟨-1, "Zebra".toList, "p", "manual", [], [], "Zebra".toList⟩ := by
  exact ⟨rfl, rfl⟩

/-- C9: a raising Spacy model call is swallowed and `join` returns the
empty list, but `Flair.run` has no exception handler, so a raising Flair
model call leaves `self.result` unassigned and `Flair.join` raises
`AttributeError` to the dispatcher instead of returning an empty list. -/
theorem C9_flair_raises :
    (∀ t : PyStr, spacyRunJoin t SpacyOutcome.raises = Except.ok ("spacy", [])) ∧
    flairRunJoin FlairOutcome.raises = Except.error "AttributeError: result" :=
  ⟨fun _ => rfl, rfl⟩

/-- C1 counterexample: with spacy, polyglot and flair all reporting the
same entity at offset 0 and no seed backend, the merged registry holds an
entry whose source list has three distinct backends and no preferred type,
yet the final output is empty — the survival test is `len(ner_src) == 2`,
so a three-source non-seed entry does not survive, contradicting the
claimed "at least two" filter. -/
theorem C1_counterexample :
    dictFind
        (mergedRegistry ⟨[], [], some [⟨['X'], 0, "person"⟩],
          some [⟨['X'], 0, "person"⟩], some [⟨['X'], 0, "person"⟩]⟩) 0
      = some ⟨3, ['X'], ["spacy", "polyglot", "flair"], [("person", 3)], none, none⟩ ∧
    intergrate_results ⟨[], [], some [⟨['X'], 0, "person"⟩],
        some [⟨['X'], 0, "person"⟩], some [⟨['X'], 0, "person"⟩]⟩
        "p" "X is hier".toList 5
      = some [] := by
  exact ⟨rfl, rfl⟩

/-- C2 counterexample: stanford reports an entity at offset 37, then
spotlight reports the same offset — the claim says the existing entry gets
its count incremented to 2 with "spotlight" appended, and that new entries
carry no preferred type; the code instead stores a fresh spotlight entry
(count 1, source list just "spotlight") over the stanford entry, and that
fresh entry does carry a preferred type. -/
theorem C2_counterexample :
    dictFind (pass1 [⟨"Albert Einstein".toList, 37, "person"⟩] []) 37
      = some (stanfordEntry ⟨"Albert Einstein".toList, 37, "person"⟩) ∧
    pass2 (resAfterStanford [⟨"Albert Einstein".toList, 37, "person"⟩])
        [⟨"Einstein".toList, 37, "person"⟩]
        (pass1 [⟨"Albert Einstein".toList, 37, "person"⟩] [])
      = some [(37, ⟨1, "Einstein".toList, ["spotlight"], [("person", 1)],
                some "person", none⟩)] := by
  exact ⟨rfl, rfl⟩

/-- C6 counterexample: at offset 100, far beyond the 5-character text
"ab cd", the left context is the whole text rather than the empty string
the claim promises for out-of-range offsets. -/
theorem C6_counterexample :
    (context "ab cd".toList "x".toList 100 5).l_context = "ab cd".toList ∧
    "ab cd".toList.length = 5 ∧
    (context "ab cd".toList "x".toList 100 5).l_context ≠ [] := by
  exact ⟨rfl, rfl, by decide⟩

/-- C6: the function `context` is total in the embedding (it never
raises); for an offset at or past the end of the text the right context is
empty, and for an offset at or below minus the text length the left
context is empty.  (The context on the other side is computed from the
clamped slice and can be nonempty, as the counterexample shows.) -/
theorem C6_context_amended (t ne : PyStr) (pos W : Int) :
    ((t.length : Int) ≤ pos → (context t ne pos W).r_context = []) ∧
    (pos ≤ -(t.length : Int) → (context t ne pos W).l_context = []) := by
  constructor
  · intro h
    show ctxRight t ne pos W = []
    unfold ctxRight
    rw [pySliceFrom_eq_nil (by omega : (t.length : Int) ≤ pos + (ne.length : Int))]
    rw [show pySplit (pyStrip []) = [] from rfl, pySliceTo_nil]
    rfl
  · intro h
    show ctxLeft t pos W = []
    unfold ctxLeft
    rw [pySliceTo_eq_nil h]
    rw [show pySplit (pyStrip []) = [] from rfl, pySliceFrom_nil]
    rfl

/-- C6 witness: offset 5 lies past the end of the 2-character text "ab",
and the right context there is empty. -/
theorem C6_context_witness :
    (("ab".toList : PyStr).length : Int) ≤ 5 ∧
    (context "ab".toList "x".toList 5 3).r_context = [] :=
  ⟨by decide, (C6_context_amended "ab".toList "x".toList 5 3).1 (by decide)⟩

/-- C7 counterexample: with window size 0 the Python slice `[-0:]` is the
whole token list, so the left context of "xy" at in-range offset 3 in
"ab xy" holds one token, violating the claimed bound of at most W = 0
tokens. -/
theorem C7_counterexample :
    ¬ ((pySplit ((context "ab xy".toList "xy".toList 3 0).l_context)).length ≤ 0) := by
  decide

/-- C7: for every text, surface form, offset and window size W at least 1,
the left context is the space-join of at most W tokens all drawn from the
whitespace tokens of `T[:P]`, and the right context is the space-join of at
most W tokens all drawn from the tokens of `T[P+len(S):]` — so neither
context contains any character of the span. -/
theorem C7_window_amended (T S : PyStr) (P W : Int) (hW : 1 ≤ W) :
    (∃ toks : List PyStr, (∀ x ∈ toks, x ∈ pySplit (pySliceTo T P)) ∧
       toks.length ≤ W.toNat ∧ (context T S P W).l_context = pyJoinSpace toks) ∧
    (∃ toks : List PyStr,
       (∀ x ∈ toks, x ∈ pySplit (pySliceFrom T (P + (S.length : Int)))) ∧
       toks.length ≤ W.toNat ∧ (context T S P W).r_context = pyJoinSpace toks) := by
  constructor
  · refine ⟨pySliceFrom (pySplit (pyStrip (pySliceTo T P))) (-W), ?_, ?_, rfl⟩
    · intro x hx
      rw [← pySplit_strip (pySliceTo T P)]
      unfold pySliceFrom at hx
      split at hx
      · exact List.drop_subset _ _ hx
      · exact List.drop_subset _ _ hx
    · unfold pySliceFrom
      rw [if_neg (by omega : ¬ (0 ≤ -W))]
      rw [List.length_drop]
      omega
  · refine ⟨pySliceTo (pySplit (pyStrip (pySliceFrom T (P + (S.length : Int))))) W,
      ?_, ?_, rfl⟩
    · intro x hx
      rw [← pySplit_strip (pySliceFrom T (P + (S.length : Int)))]
      unfold pySliceTo at hx
      split at hx
      · exact List.take_subset _ _ hx
      · exact List.take_subset _ _ hx
    · unfold pySliceTo
      rw [if_pos (by omega : (0 : Int) ≤ W)]
      rw [List.length_take]
      omega

/-- C7 witness: window 5 at in-range offset 3 in "ab xy". -/
theorem C7_window_witness :
    (1 : Int) ≤ 5 ∧
    ((∃ toks : List PyStr,
        (∀ x ∈ toks, x ∈ pySplit (pySliceTo "ab xy".toList 3)) ∧
        toks.length ≤ (5 : Int).toNat ∧
        (context "ab xy".toList "xy".toList 3 5).l_context = pyJoinSpace toks) ∧
     (∃ toks : List PyStr,
        (∀ x ∈ toks, x ∈ pySplit (pySliceFrom "ab xy".toList
          (3 + (("xy".toList).length : Int)))) ∧
        toks.length ≤ (5 : Int).toNat ∧
        (context "ab xy".toList "xy".toList 3 5).r_context = pyJoinSpace toks)) :=
  ⟨by decide, C7_window_amended "ab xy".toList "xy".toList 3 5 (by decide)⟩

/-- C8 counterexample: in "a- cd" with surface form "cd" at offset 3, the
character immediately preceding the offset is the space at index 2, which
is not a boundary-punctuation character, so the claim says nothing is
prepended; but the code tests the last character of the whitespace-stripped
left context, the dash, and produces "-cd". -/
theorem C8_counterexample :
    (context "a- cd".toList "cd".toList 3 5).ne_context = "-cd".toList ∧
    "a- cd".toList[2]? = some ' ' ∧
    ' ' ∉ CONTEXT_TOKENS := by
  exact ⟨rfl, rfl, by decide⟩

/-- C8: `ne_context` is the surface form with at most one character
prepended and at most one appended; the prepended character is the last
character of the computed (stripped, token-joined) left context, attached
exactly when it lies in the boundary-punctuation set, and the appended
character is the first character of the computed right context, attached
exactly when it lies in that set — not, in general, the characters of the
text immediately adjacent to the span. -/
theorem C8_ne_context_amended (T S : PyStr) (P W : Int) :
    ∃ lpre rsuf : PyStr,
      (context T S P W).ne_context = lpre ++ S ++ rsuf ∧
      ((lpre = [] ∧
         ∀ c, (context T S P W).l_context.getLast? = some c → c ∉ CONTEXT_TOKENS) ∨
       (∃ c, lpre = [c] ∧ (context T S P W).l_context.getLast? = some c ∧
         c ∈ CONTEXT_TOKENS)) ∧
      ((rsuf = [] ∧
         ∀ c, (context T S P W).r_context.head? = some c → c ∉ CONTEXT_TOKENS) ∨
       (∃ c, rsuf = [c] ∧ (context T S P W).r_context.head? = some c ∧
         c ∈ CONTEXT_TOKENS)) :=
  neCtxBuild_shape (ctxLeft T P W) (ctxRight T S P W) S

theorem mem_keys_dictSet {d : List (Int × Entry)} {k : Int} {v : Entry} {x : Int} :
    x ∈ keys (dictSet d k v) ↔ x ∈ keys d ∨ x = k := by
  induction d with
  | nil => simp [dictSet, keys]
  | cons p rest ih =>
    by_cases hp : p.1 = k
    · rw [show dictSet (p :: rest) k v = (k, v) :: rest from by simp [dictSet, hp]]
      simp only [keys, List.map_cons, List.mem_cons, hp]
      tauto
    · rw [show dictSet (p :: rest) k v = p :: dictSet rest k v from by
        simp [dictSet, hp]]
      simp only [keys, List.map_cons, List.mem_cons]
      constructor
      · rintro (h | h)
        · exact Or.inl (Or.inl h)
        · rcases ih.mp h with h1 | h1
          · exact Or.inl (Or.inr h1)
          · exact Or.inr h1
      · rintro ((h | h) | h)
        · exact Or.inl h
        · exact Or.inr (ih.mpr (Or.inl h))
        · exact Or.inr (ih.mpr (Or.inr h))

theorem nodup_keys_dictSet {d : List (Int × Entry)} {k : Int} {v : Entry}
    (h : (keys d).Nodup) : (keys (dictSet d k v)).Nodup := by
  induction d with
  | nil => simp [dictSet, keys]
  | cons p rest ih =>
    simp only [keys, List.map_cons, List.nodup_cons] at h
    by_cases hp : p.1 = k
    · simp only [dictSet, if_pos hp, keys, List.map_cons, List.nodup_cons]
      exact ⟨hp ▸ h.1, h.2⟩
    · simp only [dictSet, if_neg hp, keys, List.map_cons, List.nodup_cons]
      refine ⟨?_, ih h.2⟩
      intro hmem
      rcases mem_keys_dictSet.mp hmem with h1 | h1
      · exact h.1 h1
      · exact hp h1

theorem dictFind_dictSet_self : ∀ (d : List (Int × Entry)) (k : Int) (v : Entry),
    dictFind (dictSet d k v) k = some v := by
  intro d
  induction d with
  | nil => intro k v; simp [dictSet, dictFind]
  | cons p rest ih =>
    intro k v
    by_cases hp : p.1 = k
    · simp [dictSet, if_pos hp, dictFind]
    · simp only [dictSet, if_neg hp, dictFind]
      exact ih k v

theorem mem_nodup_unique : ∀ {d : List (Int × Entry)}, (keys d).Nodup →
    ∀ {k : Int} {a b : Entry}, (k, a) ∈ d → (k, b) ∈ d → a = b := by
  intro d
  induction d with
  | nil => intro _ k a b ha; simp at ha
  | cons p rest ih =>
    intro h k a b ha hb
    simp only [keys, List.map_cons, List.nodup_cons] at h
    rcases List.mem_cons.mp ha with h1 | h1
    · rcases List.mem_cons.mp hb with h2 | h2
      · have : (k, a) = (k, b) := h1.trans h2.symm
        simpa using this
      · exfalso
        have hk : k = p.1 := by rw [← h1]
        exact h.1 (hk ▸ List.mem_map.mpr ⟨(k, b), h2, rfl⟩)
    · rcases List.mem_cons.mp hb with h2 | h2
      · exfalso
        have hk : k = p.1 := by rw [← h2]
        exact h.1 (hk ▸ List.mem_map.mpr ⟨(k, a), h1, rfl⟩)
      · exact ih h.2 h1 h2

theorem nodup_keys_pass1 : ∀ (l : List RawEntity) (reg : List (Int × Entry)),
    (keys reg).Nodup → (keys (pass1 l reg)).Nodup := by
  intro l
  induction l with
  | nil => intro reg h; exact h
  | cons ne rest ih =>
    intro reg h
    exact ih _ (nodup_keys_dictSet h)

theorem nodup_keys_spotFold : ∀ (l : List RawEntity) (reg : List (Int × Entry)),
    (keys reg).Nodup → (keys (spotFold l reg)).Nodup := by
  intro l
  induction l with
  | nil => intro reg h; exact h
  | cons ne rest ih =>
    intro reg h
    exact ih _ (nodup_keys_dictSet h)

theorem nodup_keys_corroborate (p : String) :
    ∀ (l : List RawEntity) (reg : List (Int × Entry)),
      (keys reg).Nodup → (keys (corroborate p l reg)).Nodup := by
  intro l
  induction l with
  | nil => intro reg h; exact h
  | cons ne rest ih =>
    intro reg h
    simp only [corroborate]
    cases hf : dictFind reg ne.pos with
    | some e =>
      by_cases hp : p ∈ e.ner_src
      · simp only [hp, if_true]
        exact ih reg h
      · simp only [hp, if_false]
        exact ih _ (nodup_keys_dictSet h)
    | none =>
      exact ih _ (nodup_keys_dictSet h)

theorem nodup_keys_pass3 (input : NerResult) {reg : List (Int × Entry)}
    (h : (keys reg).Nodup) : (keys (pass3 input reg)).Nodup := by
  have h1 : ∀ (o : Option (List RawEntity)) (p : String) (r : List (Int × Entry)),
      (keys r).Nodup →
      (keys (match o with | none => r | some l => corroborate p l r)).Nodup := by
    intro o p r hr
    cases o with
    | none => exact hr
    | some l => exact nodup_keys_corroborate p l r hr
  unfold pass3
  exact h1 _ _ _ (h1 _ _ _ (h1 _ _ _ h))

theorem pass2_eq : ∀ (res : Option Entry) (l : List RawEntity)
    (reg : List (Int × Entry)), pass2 res l reg = some (spotFold l reg) := by
  intro res l
  induction l with
  | nil => intro reg; rfl
  | cons ne rest ih =>
    intro reg
    simp only [pass2, spotFold, posInRes, Bool.false_eq_true, if_false]
    exact ih _

theorem mergedRegistry_eq (input : NerResult) :
    mergedRegistry input
      = pass3 input (spotFold input.spotlight (pass1 input.stanford [])) := by
  unfold mergedRegistry
  rw [pass2_eq]
  rfl

theorem intergrate_results_eq (input : NerResult) (src : String) (text : PyStr)
    (ctx : Int) :
    intergrate_results input src text ctx
      = (filterFinalize text src ctx (mergedRegistry input)).map sortByPos := by
  unfold intergrate_results
  rw [mergedRegistry_eq]
  simp only [pass2_eq]

theorem nodup_keys_merged (input : NerResult) :
    (keys (mergedRegistry input)).Nodup := by
  rw [mergedRegistry_eq]
  exact nodup_keys_pass3 input
    (nodup_keys_spotFold _ _ (nodup_keys_pass1 _ _ (by simp [keys])))

theorem ff_map_pos (st : PyStr) (src : String) (ctx : Int) :
    ∀ (reg : List (Int × Entry)) (out : List FinalEntity),
      filterFinalize st src ctx reg = some out →
      out.map (fun f => f.pos) = keys (reg.filter (fun p => survives p.2)) := by
  intro reg
  induction reg with
  | nil =>
    intro out h
    simp only [filterFinalize, Option.some.injEq] at h
    rw [← h]
    rfl
  | cons p rest ih =>
    intro out h
    obtain ⟨k, e⟩ := p
    simp only [filterFinalize] at h
    by_cases hs : survives e = true
    · rw [if_pos hs] at h
      cases hf : finalize st src ctx k e with
      | none => rw [hf] at h; cases h
      | some f =>
        rw [hf] at h
        cases hrest : filterFinalize st src ctx rest with
        | none => rw [hrest] at h; cases h
        | some out' =>
          rw [hrest] at h
          simp only [Option.some.injEq] at h
          rw [← h]
          simp only [List.map_cons]
          rw [ih out' hrest]
          simp [keys, List.filter_cons, hs, finalize_pos hf]
    · rw [if_neg hs] at h
      rw [ih out h]
      simp [List.filter_cons, hs]

theorem ff_forward (st : PyStr) (src : String) (ctx : Int) :
    ∀ (reg : List (Int × Entry)) (out : List FinalEntity),
      filterFinalize st src ctx reg = some out →
      ∀ f ∈ out, ∃ k e, (k, e) ∈ reg ∧ survives e = true ∧
        finalize st src ctx k e = some f := by
  intro reg
  induction reg with
  | nil =>
    intro out h f hf
    simp only [filterFinalize, Option.some.injEq] at h
    rw [← h] at hf
    cases hf
  | cons p rest ih =>
    intro out h f hf
    obtain ⟨k, e⟩ := p
    simp only [filterFinalize] at h
    by_cases hs : survives e = true
    · rw [if_pos hs] at h
      cases hfin : finalize st src ctx k e with
      | none => rw [hfin] at h; cases h
      | some f0 =>
        rw [hfin] at h
        cases hrest : filterFinalize st src ctx rest with
        | none => rw [hrest] at h; cases h
        | some out' =>
          rw [hrest] at h
          simp only [Option.some.injEq] at h
          rw [← h] at hf
          rcases List.mem_cons.mp hf with h1 | h1
          · exact ⟨k, e, List.mem_cons_self _ _, hs, h1 ▸ hfin⟩
          · obtain ⟨k', e', hm', hs', hf'⟩ := ih out' hrest f h1
            exact ⟨k', e', List.mem_cons.mpr (Or.inr hm'), hs', hf'⟩
    · rw [if_neg hs] at h
      obtain ⟨k', e', hm', hs', hf'⟩ := ih out h f hf
      exact ⟨k', e', List.mem_cons.mpr (Or.inr hm'), hs', hf'⟩

theorem ff_backward (st : PyStr) (src : String) (ctx : Int) :
    ∀ (reg : List (Int × Entry)) (out : List FinalEntity),
      filterFinalize st src ctx reg = some out →
      ∀ (k : Int) (e : Entry), (k, e) ∈ reg → survives e = true →
        ∃ f ∈ out, finalize st src ctx k e = some f := by
  intro reg
  induction reg with
  | nil => intro out _ k e hm; simp at hm
  | cons p rest ih =>
    intro out h k e hm hs
    obtain ⟨k0, e0⟩ := p
    simp only [filterFinalize] at h
    by_cases hs0 : survives e0 = true
    · rw [if_pos hs0] at h
      cases hfin : finalize st src ctx k0 e0 with
      | none => rw [hfin] at h; cases h
      | some f0 =>
        rw [hfin] at h
        cases hrest : filterFinalize st src ctx rest with
        | none => rw [hrest] at h; cases h
        | some out' =>
          rw [hrest] at h
          simp only [Option.some.injEq] at h
          rcases List.mem_cons.mp hm with h1 | h1
          · have hk : k0 = k ∧ e0 = e := by
              have := h1.symm
              simp only [Prod.mk.injEq] at this
              exact this
            refine ⟨f0, ?_, ?_⟩
            · rw [← h]; exact List.mem_cons_self _ _
            · rw [← hk.1, ← hk.2]; exact hfin
          · obtain ⟨f, hf, hf2⟩ := ih out' hrest k e h1 hs
            exact ⟨f, by rw [← h]; exact List.mem_cons.mpr (Or.inr hf), hf2⟩
    · rw [if_neg hs0] at h
      rcases List.mem_cons.mp hm with h1 | h1
      · exfalso
        have : e0 = e := by
          have := h1.symm
          simp only [Prod.mk.injEq] at this
          exact this.2
        exact hs0 (this ▸ hs)
      · exact ih out h k e h1 hs

theorem sortByPos_perm (l : List FinalEntity) : (sortByPos l).Perm l :=
  List.perm_insertionSort _ l

theorem sortByPos_sorted (l : List FinalEntity) :
    List.Pairwise (fun a b : FinalEntity => a.pos ≤ b.pos) (sortByPos l) :=
  List.sorted_insertionSort _ l

theorem pairwise_lt_of_le_nodup {l : List FinalEntity}
    (hs : List.Pairwise (fun a b : FinalEntity => a.pos ≤ b.pos) l)
    (hn : (l.map (fun f => f.pos)).Nodup) :
    List.Pairwise (fun a b : FinalEntity => a.pos < b.pos) l := by
  have hne : List.Pairwise (fun a b : FinalEntity => a.pos ≠ b.pos) l :=
    List.pairwise_map.mp hn
  exact (hs.and hne).imp (fun h => lt_of_le_of_ne h.1 h.2)

/-- C5: whenever `intergrate_results` returns, its output is strictly
ascending in the `pos` field — in particular no two output entries share a
position (at most one aggregated entity per offset per segment, since the
registry is keyed by offset). -/
theorem C5_output_sorted (input : NerResult) (src : String) (text : PyStr)
    (ctx : Int) (out : List FinalEntity)
    (h : intergrate_results input src text ctx = some out) :
    List.Pairwise (fun a b : FinalEntity => a.pos < b.pos) out := by
  rw [intergrate_results_eq] at h
  cases hff : filterFinalize text src ctx (mergedRegistry input) with
  | none => rw [hff] at h; cases h
  | some fl =>
    rw [hff] at h
    simp only [Option.map_some', Option.some.injEq] at h
    have h1 : fl.map (fun f => f.pos)
        = keys ((mergedRegistry input).filter (fun p => survives p.2)) :=
      ff_map_pos text src ctx _ _ hff
    have h2 : (keys ((mergedRegistry input).filter (fun p => survives p.2))).Nodup := by
      have hsub : List.Sublist
          (((mergedRegistry input).filter (fun p => survives p.2)).map Prod.fst)
          ((mergedRegistry input).map Prod.fst) :=
        (List.filter_sublist _).map Prod.fst
      exact hsub.nodup (nodup_keys_merged input)
    have h3 : (fl.map (fun f => f.pos)).Nodup := h1 ▸ h2
    have h4 : ((sortByPos fl).map (fun f => f.pos)).Nodup :=
      (((sortByPos_perm fl).map (fun f => f.pos)).nodup_iff).mpr h3
    rw [← h]
    exact pairwise_lt_of_le_nodup (sortByPos_sorted fl) h4

/-- C5 witness: two stanford entities at offsets 2 and 0 come out sorted
strictly ascending. -/
theorem C5_output_sorted_witness :
    intergrate_results ⟨[⟨['b'], 2, "person"⟩, ⟨['a'], 0, "person"⟩],
        [], none, none, none⟩ "p" ['a', ' ', 'b'] 5
      = some [⟨1, ['a'], ["stanford"], "person", 1, ["person"], none,
                [], ['b'], ['a'], 0, "p"⟩,
              ⟨1, ['b'], ["stanford"], "person", 1, ["person"], none,
                ['a'], [], ['b'], 2, "p"⟩] ∧
    List.Pairwise (fun a b : FinalEntity => a.pos < b.pos)
      [⟨1, ['a'], ["stanford"], "person", 1, ["person"], none,
         [], ['b'], ['a'], 0, "p"⟩,
       ⟨1, ['b'], ["stanford"], "person", 1, ["person"], none,
         ['a'], [], ['b'], 2, "p"⟩] :=
  ⟨rfl, C5_output_sorted ⟨[⟨['b'], 2, "person"⟩, ⟨['a'], 0, "person"⟩],
      [], none, none, none⟩ "p" ['a', ' ', 'b'] 5 _ rfl⟩

/-- C1 (amended): an entry of the merged registry contributes an output
record at its offset iff it survives the filter, i.e. iff it has a truthy
preferred type or its source list has length exactly two — not "at least
two" as claimed. -/
theorem C1_survival_amended (input : NerResult) (src : String) (text : PyStr)
    (ctx : Int) (out : List FinalEntity) (k : Int) (e : Entry)
    (h : intergrate_results input src text ctx = some out)
    (hmem : (k, e) ∈ mergedRegistry input) :
    (∃ f ∈ out, f.pos = k) ↔ survives e = true := by
  rw [intergrate_results_eq] at h
  cases hff : filterFinalize text src ctx (mergedRegistry input) with
  | none => rw [hff] at h; cases h
  | some fl =>
    rw [hff] at h
    simp only [Option.map_some', Option.some.injEq] at h
    have hperm : (sortByPos fl).Perm fl := sortByPos_perm fl
    constructor
    · rintro ⟨f, hf, hfk⟩
      rw [← h] at hf
      have hf' : f ∈ fl := hperm.mem_iff.mp hf
      obtain ⟨k', e', hmem', hs', hfin'⟩ := ff_forward text src ctx _ _ hff f hf'
      have hk : k' = k := by rw [← hfk]; exact (finalize_pos hfin').symm
      subst hk
      have he : e' = e := mem_nodup_unique (nodup_keys_merged input) hmem' hmem
      rw [← he]
      exact hs'
    · intro hs
      obtain ⟨f, hf, hfin⟩ := ff_backward text src ctx _ _ hff k e hmem hs
      exact ⟨f, by rw [← h]; exact hperm.mem_iff.mpr hf, finalize_pos hfin⟩

/-- C1 witness: a lone stanford entity (truthy preferred type) survives
and appears in the output at its offset. -/
theorem C1_survival_witness :
    intergrate_results ⟨[⟨['a'], 0, "person"⟩], [], none, none, none⟩ "p" ['a'] 5
      = some [⟨1, ['a'], ["stanford"], "person", 1, ["person"], none,
                [], [], ['a'], 0, "p"⟩] ∧
    (0, stanfordEntry ⟨['a'], 0, "person"⟩) ∈
      mergedRegistry ⟨[⟨['a'], 0, "person"⟩], [], none, none, none⟩ ∧
    ((∃ f ∈ [(⟨1, ['a'], ["stanford"], "person", 1, ["person"], none,
        [], [], ['a'], 0, "p"⟩ : FinalEntity)], f.pos = 0) ↔
      survives (stanfordEntry ⟨['a'], 0, "person"⟩) = true) := by
  refine ⟨rfl, ?_, ?_⟩
  · rw [show mergedRegistry ⟨[⟨['a'], 0, "person"⟩], [], none, none, none⟩
        = [(0, stanfordEntry ⟨['a'], 0, "person"⟩)] from rfl]
    exact List.mem_cons_self _ _
  · exact C1_survival_amended ⟨[⟨['a'], 0, "person"⟩], [], none, none, none⟩
      "p" ['a'] 5 _ 0 (stanfordEntry ⟨['a'], 0, "person"⟩) rfl
      (by rw [show mergedRegistry ⟨[⟨['a'], 0, "person"⟩], [], none, none, none⟩
            = [(0, stanfordEntry ⟨['a'], 0, "person"⟩)] from rfl]
          exact List.mem_cons_self _ _)

/-- C2 (amended): the spotlight pass never takes its update branch — it is
equivalent to unconditionally storing a fresh entry (count 1, source list
just "spotlight", singleton histogram, preferred type set to the reported
type) at each reported offset, overwriting whatever the registry held
there. -/
theorem C2_spotlight_amended (res : Option Entry) (l : List RawEntity)
    (reg : List (Int × Entry)) :
    pass2 res l reg = some (spotFold l reg) ∧
    ∀ ne : RawEntity,
      dictFind (dictSet reg ne.pos (spotlightNewEntry ne)) ne.pos
        = some (spotlightNewEntry ne) ∧
      (spotlightNewEntry ne).pref_type = some ne.type := by
  refine ⟨pass2_eq res l reg, ?_⟩
  intro ne
  exact ⟨dictFind_dictSet_self reg ne.pos (spotlightNewEntry ne), rfl⟩

end MultiNER
